import Mathlib

/-!
Verification of the regfs-rs repository: a ProjFS (Windows Projected File
System) provider that projects the Windows registry as a directory tree.

The development shallowly embeds the Rust sources:
  * `src/dir_enum.rs`   — `SimpleDirEnumerator` and its `get_dir_enum` pass;
  * `src/regfs.rs`      — the `RegFs` backend (enumeration table, placeholder
                          info, file data, notifications);
  * `src/reg_ops.rs`    — registry path resolution (`open_key`,
                          `does_key_exist`, `read_value`, `HKEYS`);
  * `src/projfs.rs`     — the `ProjFs` session lifecycle and `start()` effect
                          order;
  * `src/fs_helper.rs`  — `write_placeholder_info` metadata construction.

External collaborators are abstracted, never reimplemented:
  * the Windows registry itself becomes an abstract `Registry` value
    (hive-root contents plus an optional key for every (hive, subpath) pair);
    transient OS error paths of winreg (mapped to `PlatformError`/`E_FAIL`
    by the code) are outside the model, lookups are total;
  * `PrjFileNameMatch` (OS glob matching) becomes an arbitrary predicate
    `pat : String → Bool`;
  * `PrjFillDirEntryBuffer` becomes `fillDirEntryBuffer`: a buffer with a
    capacity counted in entries, which also rejects names that are invalid
    for the filesystem (abstracted as a predicate `valid : String → Bool`);
  * `PrjWritePlaceholderInfo` / `PrjWriteFileData` deliveries are recorded
    as values instead of performed.
-/

namespace RegfsRs

/-- 32-bit HRESULT status values, as the numeric codes the code returns. -/
abbrev HResult := ℕ

def S_OK : HResult := 0

def E_FAIL : HResult := 0x80004005

def E_INVALIDARG : HResult := 0x80070057

/-- `ERROR_FILE_NOT_FOUND.to_hresult()`. -/
def ERROR_FILE_NOT_FOUND : HResult := 0x80070002

/-- `ERROR_ACCESS_DENIED.to_hresult()`. -/
def ERROR_ACCESS_DENIED : HResult := 0x80070005

/-- `STATUS_CANNOT_DELETE.to_hresult()` (NTSTATUS 0xC0000121 with the
facility-NT bit added by HRESULT_FROM_NT). -/
def STATUS_CANNOT_DELETE : HResult := 0xD0000121

/-- A failing HRESULT: the severity (high) bit of the 32-bit value is set.
Returning such a value from a ProjFS notification callback blocks (denies)
the underlying action at the OS level. -/
def IsFailureHr (hr : HResult) : Prop := 0x80000000 ≤ hr

instance (hr : HResult) : Decidable (IsFailureHr hr) :=
  inferInstanceAs (Decidable (0x80000000 ≤ hr))

/-- One directory entry as produced by the backend, mirroring the
`(String, Option<u32>)` items fed to `SimpleDirEnumerator`: the name plus
`none` for a subkey (directory) or `some size` for a value (file). -/
abbrev Entry := String × Option ℕ

/-! ### The ordering used by Rust `sort_unstable` on `(String, Option<u32>)`

Rust compares `String`s bytewise on their UTF-8 encoding, which coincides
with lexicographic order on the sequence of Unicode code points, i.e. on
`String.data`.  `Option<u32>` is ordered with `None` below every `Some`.
The pair is compared lexicographically (derived `Ord` on tuples).  The
comparison is written as a structurally recursive `Bool` function so that
concrete sorts evaluate inside the kernel. -/

/-- Lexicographic strict order on character lists (Rust `str` ordering). -/
def charListLt : List Char → List Char → Bool
  | [], [] => false
  | [], _ :: _ => true
  | _ :: _, [] => false
  | a :: as, b :: bs => if a = b then charListLt as bs else decide (a < b)

/-- Rust `String` ordering (strict). -/
def strLt (a b : String) : Bool := charListLt a.data b.data

/-- Rust `Option<u32>` ordering (non-strict): `None` first. -/
def optLe : Option ℕ → Option ℕ → Bool
  | none, _ => true
  | some _, none => false
  | some x, some y => decide (x ≤ y)

/-- Rust derived `Ord` on `(String, Option<u32>)` (non-strict form). -/
def entryLeB (a b : Entry) : Bool :=
  strLt a.1 b.1 || (a.1 == b.1 && optLe a.2 b.2)

/-- `entryLeB` as a relation, for `List.insertionSort`. -/
def entryLe (a b : Entry) : Prop := entryLeB a b = true

instance : DecidableRel entryLe := fun a b =>
  inferInstanceAs (Decidable (entryLeB a b = true))

/-- The canonical ascending sort used to model Rust
`sort_unstable`/`sorted_unstable`.  The order is total and antisymmetric on
the sorted keys, so every correct sort produces this same list. -/
def sortEntries (l : List Entry) : List Entry := List.insertionSort entryLe l

/-! ### `src/dir_enum.rs` — the enumeration engine -/

/-- Outcome of one `PrjFillDirEntryBuffer` call. -/
inductive FillResult
  | ok
  | full
  | invalid
deriving DecidableEq

/-- Model of `PrjFillDirEntryBuffer`: the OS rejects a name that is invalid
for the filesystem (`valid name = false`, e.g. a name containing a star or a
slash); otherwise the buffer accepts entries while capacity remains and
reports `ERROR_INSUFFICIENT_BUFFER` once it is exhausted. -/
def fillDirEntryBuffer (valid : String → Bool) (cap : ℕ) (name : String) :
    FillResult :=
  if valid name = false then FillResult.invalid
  else if cap = 0 then FillResult.full
  else FillResult.ok

/-- `SimpleDirEnumerator { cur, start }`: `cur` is the remaining suffix of
the entry sequence (the `Peekable` iterator position), `start` the original
sequence kept for restarts. -/
structure SimpleDirEnumerator where
  cur : List Entry
  start : List Entry
deriving DecidableEq

/-- `SimpleDirEnumerator::new`. -/
def SimpleDirEnumerator.new (seq : List Entry) : SimpleDirEnumerator :=
  ⟨seq, seq⟩

/-- The `while let` loop of `SimpleDirEnumerator::get_dir_enum`: walk the
remaining entries, skipping those that do not match `pat`; append matching
ones to the buffer (capacity `cap`), stopping without advancing on
buffer-full, and skipping with a warning on an invalid name.  Returns the
new iterator position and the entries delivered to the buffer. -/
def SimpleDirEnumerator.getDirEnumAux (pat valid : String → Bool) :
    List Entry → ℕ → List Entry × List Entry
  | [], _ => ([], [])
  | e :: rest, cap =>
    if pat e.1 = false then
      SimpleDirEnumerator.getDirEnumAux pat valid rest cap
    else
      match fillDirEntryBuffer valid cap e.1 with
      | FillResult.invalid =>
        SimpleDirEnumerator.getDirEnumAux pat valid rest cap
      | FillResult.full => (e :: rest, [])
      | FillResult.ok =>
        let r := SimpleDirEnumerator.getDirEnumAux pat valid rest (cap - 1)
        (r.1, e :: r.2)

/-- `SimpleDirEnumerator::get_dir_enum`: reset the cursor when the
restart-scan flag is set, then run the filling loop. -/
def SimpleDirEnumerator.getDirEnum (en : SimpleDirEnumerator)
    (restart : Bool) (pat valid : String → Bool) (cap : ℕ) :
    SimpleDirEnumerator × List Entry :=
  let c0 := if restart then en.start else en.cur
  let r := SimpleDirEnumerator.getDirEnumAux pat valid c0 cap
  (⟨r.1, en.start⟩, r.2)

/-! ### `src/reg_ops.rs` — registry path resolution -/

/-- Contents of one registry key: its subkey names, and its values as
(name, raw bytes) pairs.  `getValue` mirrors `RegKey::get_raw_value`,
consistent by construction with `enum_values` as in the real registry. -/
structure KeyContent where
  subkeys : List String
  values : List (String × List ℕ)
deriving DecidableEq

def KeyContent.getValue (k : KeyContent) (name : String) :
    Option (List ℕ) :=
  (k.values.find? (fun v => v.1 == name)).map (·.2)

/-- The abstract Windows registry: contents of each predefined hive root
(`RegKey::predef`, always openable), and an optional key for every
(hive, subpath) pair as resolved by `RegKey::open_subkey`. -/
structure Registry where
  root : String → KeyContent
  sub : String → String → Option KeyContent

/-- The `HKEYS` table of reg_ops.rs, in its insertion order. -/
def HKEYS : List String :=
  ["HKEY_CLASSES_ROOT", "HKEY_CURRENT_USER", "HKEY_LOCAL_MACHINE",
   "HKEY_USERS", "HKEY_CURRENT_CONFIG"]

/-- `str::split_once` at the first occurrence of a character. -/
def splitFirst (c : Char) : List Char → Option (List Char × List Char)
  | [] => none
  | ch :: rest =>
    if ch = c then some ([], rest)
    else
      match splitFirst c rest with
      | none => none
      | some (l, r) => some (ch :: l, r)

/-- `str::split_once('\\')`. -/
def splitOnceBackslash (s : String) : Option (String × String) :=
  (splitFirst '\\' s.data).map (fun p => (⟨p.1⟩, ⟨p.2⟩))

/-- `str::rsplit_once('\\')`: split at the last backslash, returning
(before, after). -/
def rsplitOnceBackslash (s : String) : Option (String × String) :=
  (splitFirst '\\' s.data.reverse).map
    (fun p => (⟨p.2.reverse⟩, ⟨p.1.reverse⟩))

/-- `reg_ops::open_key_internal` (the transient winreg error branch, which
maps OS errors to an HRESULT, is outside the model). -/
def openKeyInternal (reg : Registry) (hkey path : String) :
    Option KeyContent :=
  if HKEYS.contains hkey then reg.sub hkey path else none

/-- `reg_ops::open_key`. -/
def openKey (reg : Registry) (key : String) : Option KeyContent :=
  match splitOnceBackslash key with
  | some (hkey, path) => openKeyInternal reg hkey path
  | none => if HKEYS.contains key then some (reg.root key) else none

/-- `reg_ops::does_key_exist`. -/
def doesKeyExist (reg : Registry) (key : String) : Bool :=
  match splitOnceBackslash key with
  | some (hkey, path) => (openKeyInternal reg hkey path).isSome
  | none => HKEYS.contains key

/-- `reg_ops::read_value`. -/
def readValue (reg : Registry) (path : String) : Option (List ℕ) :=
  match rsplitOnceBackslash path with
  | some (parent, name) =>
    match openKey reg parent with
    | some k => k.getValue name
    | none => none
  | none => none

/-! ### `src/regfs.rs` — the RegFs backend

The backend state is the lock-guarded `dir_enums: HashMap<Uuid, DirEnumerator>`
table (the `fs_helper` field only carries the opaque instance handle and has
no modeled state).  The table is an association list with Uuids as naturals;
`insertEnum` replaces any previous binding like `HashMap::insert`, and
`endDirEnum` removes like `HashMap::remove`. -/

/-- The `dir_enums` table of `RegFsState`. -/
abbrev EnumTable := List (ℕ × SimpleDirEnumerator)

/-- `HashMap::get` on the `dir_enums` table. -/
def lookupEnum (tbl : EnumTable) (id : ℕ) : Option SimpleDirEnumerator :=
  (tbl.find? (fun p => p.1 == id)).map (·.2)

/-- `HashMap::insert` on the `dir_enums` table (replaces any old binding). -/
def insertEnum (tbl : EnumTable) (id : ℕ) (en : SimpleDirEnumerator) :
    EnumTable :=
  (id, en) :: tbl.filter (fun p => !(p.1 == id))

/-- The entry sequence built by `RegFs::start_dir_enum` for the root path:
the `HKEYS` names, each a directory, sorted ascending. -/
def rootEntries : List Entry :=
  sortEntries (HKEYS.map (fun name => (name, (none : Option ℕ))))

/-- The entry sequence built by `RegFs::start_dir_enum` for a resolved key:
subkeys as directories chained with values as files sized by their raw byte
length, then `sort_unstable`d. -/
def keyEntries (k : KeyContent) : List Entry :=
  sortEntries
    (k.subkeys.map (fun name => (name, (none : Option ℕ)))
      ++ k.values.map (fun v => (v.1, some v.2.length)))

namespace RegFs

/-- `RegFs::start_dir_enum`.  (The UTF-16 decoding of the request path and
the winreg enumeration error branches, both mapped to `E_FAIL`-style
failures, are outside the model.) -/
def startDirEnum (reg : Registry) (tbl : EnumTable) (path : String)
    (id : ℕ) : EnumTable × HResult :=
  if path = "" then
    (insertEnum tbl id (SimpleDirEnumerator.new rootEntries), S_OK)
  else
    match openKey reg path with
    | some k => (insertEnum tbl id (SimpleDirEnumerator.new (keyEntries k)), S_OK)
    | none => (tbl, ERROR_FILE_NOT_FOUND)

/-- `RegFs::end_dir_enum`: remove the session (a no-op for an unknown id)
and return `S_OK` unconditionally. -/
def endDirEnum (tbl : EnumTable) (id : ℕ) : EnumTable × HResult :=
  (tbl.filter (fun p => !(p.1 == id)), S_OK)

/-- `RegFs::get_dir_enum`: look the session up; an unknown id yields
`E_INVALIDARG` and no state change, otherwise one engine pass runs and the
updated enumerator is stored back.  The result also records the entries the
pass delivered to the OS buffer. -/
def getDirEnum (pat valid : String → Bool) (tbl : EnumTable) (id : ℕ)
    (restart : Bool) (cap : ℕ) : EnumTable × HResult × List Entry :=
  match lookupEnum tbl id with
  | none => (tbl, E_INVALIDARG, [])
  | some en =>
    let r := en.getDirEnum restart pat valid cap
    (insertEnum tbl id r.1, S_OK, r.2)

/-- A sequence of `RegFs::get_dir_enum` calls on the same id, none carrying
the restart flag, with the given per-call buffer capacities.  Returns the
final table, the per-call status codes, and the concatenated deliveries. -/
def runGetCalls (pat valid : String → Bool) (tbl : EnumTable) (id : ℕ) :
    List ℕ → EnumTable × List HResult × List Entry
  | [] => (tbl, [], [])
  | cap :: caps =>
    let r := getDirEnum pat valid tbl id false cap
    let rest := runGetCalls pat valid r.1 id caps
    (rest.1, r.2.1 :: rest.2.1, r.2.2 ++ rest.2.2)

end RegFs

/-- The metadata written by `SimpleFsHelper::write_placeholder_info`:
`file_size = None` encodes a directory, `Some size` a file of that size. -/
structure PlaceholderInfo where
  isDirectory : Bool
  fileSize : ℕ
deriving DecidableEq

/-- `SimpleFsHelper::write_placeholder_info` metadata construction. -/
def writePlaceholderInfo (fileSize : Option ℕ) : PlaceholderInfo :=
  ⟨fileSize.isNone, fileSize.getD 0⟩

/-- `RegFs::get_placeholder_info`: returns the metadata written (if any)
together with the HRESULT. -/
def RegFs.getPlaceholderInfo (reg : Registry) (path : String) :
    Option PlaceholderInfo × HResult :=
  if doesKeyExist reg path then
    (some (writePlaceholderInfo none), S_OK)
  else
    match readValue reg path with
    | some v => (some (writePlaceholderInfo (some v.length)), S_OK)
    | none => (none, ERROR_FILE_NOT_FOUND)

/-- One `PrjWriteFileData` delivery: the size of the aligned buffer that was
allocated, the bytes it carried, and the byte offset it was written at. -/
structure FileDataWrite where
  allocSize : ℕ
  bytes : List ℕ
  byteOffset : ℕ
deriving DecidableEq

/-- `RegFs::get_file_data`: resolve the path to a value; if found, allocate
an aligned buffer of exactly the raw byte length, copy the whole value and
deliver it at offset 0 — the requested `byteOffset`/`length` are only
logged.  Otherwise `ERROR_FILE_NOT_FOUND`. -/
def RegFs.getFileData (reg : Registry) (path : String)
    (byteOffset length : ℕ) : Option FileDataWrite × HResult :=
  match readValue reg path with
  | some v => (some ⟨v.length, v, 0⟩, S_OK)
  | none => (none, ERROR_FILE_NOT_FOUND)

/-- The notification vocabulary of `projfs.rs`. -/
inductive NotificationKind
  | fileOpened
  | newFileCreated
  | fileOverwritten
  | preDelete
  | preRename
  | preSetHardlink
  | fileRenamed
  | hardlinkCreated
  | fileHandleClosedNoModification
  | fileHandleClosedFileModified
  | fileHandleClosedFileDeleted
  | filePreConvertToFull
deriving DecidableEq

/-- `RegFs::notify`.  The body never locks the backend state, so the table
is passed through untouched; observation-only kinds log and return `S_OK`,
the two pre-action kinds return failing HRESULTs which deny the action. -/
def RegFs.notify (tbl : EnumTable) (kind : NotificationKind) :
    EnumTable × HResult :=
  match kind with
  | NotificationKind.preDelete => (tbl, ERROR_ACCESS_DENIED)
  | NotificationKind.preRename => (tbl, STATUS_CANNOT_DELETE)
  | _ => (tbl, S_OK)

/-! ### `src/projfs.rs` — session lifecycle -/

/-- `FsState` of projfs.rs. -/
inductive FsState
  | Ready
  | Running
  | Stopped
deriving DecidableEq

/-- The externally visible effects of `ProjFs::start`, in program order. -/
inductive StartEvent
  | ensureVirtualizationRoot
  /-- `PrjStartVirtualizing`: from this call on the OS worker pool may
  dispatch callbacks into the backend. -/
  | registerVirtualization
  /-- `backend.set_instance_handle(instance_handle)`. -/
  | setInstanceHandle
deriving DecidableEq

namespace ProjFs

/-- `ProjFs::start`, with the two external outcomes (root preparation and
OS registration) as booleans.  `none` models the wrong-state `panic!`;
`some (st, ok)` gives the state afterwards and whether `Ok(())` was
returned. -/
def start (st : FsState) (rootOk regOk : Bool) :
    Option (FsState × Bool) :=
  if st ≠ FsState.Ready then none
  else if rootOk = false then some (FsState.Ready, false)
  else if regOk = false then some (FsState.Ready, false)
  else some (FsState.Running, true)

/-- The effect trace of one `ProjFs::start` call with the given state and
external outcomes, in the order the code performs them. -/
def startEvents (st : FsState) (rootOk regOk : Bool) : List StartEvent :=
  if st ≠ FsState.Ready then []
  else if rootOk = false then [StartEvent.ensureVirtualizationRoot]
  else if regOk = false then
    [StartEvent.ensureVirtualizationRoot, StartEvent.registerVirtualization]
  else
    [StartEvent.ensureVirtualizationRoot, StartEvent.registerVirtualization,
     StartEvent.setInstanceHandle]

/-- `ProjFs::stop`; `none` models the wrong-state `panic!`. -/
def stop (st : FsState) : Option FsState :=
  if st ≠ FsState.Running then none else some FsState.Stopped

/-- `Drop for ProjFs`: calls `stop()` when the session is still Running. -/
def drop (st : FsState) : Option FsState :=
  if st = FsState.Running then ProjFs.stop st else some st

end ProjFs

/-! ### Order lemmas for the entry sort -/

theorem charListLt_trans : ∀ as bs cs : List Char,
    charListLt as bs = true → charListLt bs cs = true →
    charListLt as cs = true := by
  intro as
  induction as with
  | nil =>
    intro bs cs h1 h2
    cases bs with
    | nil => simp [charListLt] at h1
    | cons b bs =>
      cases cs with
      | nil => simp [charListLt] at h2
      | cons c cs => simp [charListLt]
  | cons a as ih =>
    intro bs cs h1 h2
    cases bs with
    | nil => simp [charListLt] at h1
    | cons b bs =>
      cases cs with
      | nil => simp [charListLt] at h2
      | cons c cs =>
        simp only [charListLt] at h1 h2 ⊢
        by_cases hab : a = b
        · subst hab
          simp only [if_pos rfl] at h1
          by_cases hbc : a = c
          · subst hbc
            simp only [if_pos rfl] at h2 ⊢
            exact ih bs cs h1 h2
          · simp only [if_neg hbc] at h2 ⊢
            exact h2
        · simp only [if_neg hab] at h1
          have hab' : a < b := of_decide_eq_true h1
          by_cases hbc : b = c
          · subst hbc
            simp only [if_neg hab, decide_eq_true_eq]
            exact hab'
          · have hbc' : b < c := of_decide_eq_true (by simpa [hbc] using h2)
            have hac : a < c := lt_trans hab' hbc'
            simp [ne_of_lt hac, hac]

theorem charListLt_trichotomy : ∀ as bs : List Char,
    charListLt as bs = true ∨ as = bs ∨ charListLt bs as = true := by
  intro as
  induction as with
  | nil =>
    intro bs
    cases bs with
    | nil => exact Or.inr (Or.inl rfl)
    | cons b bs => exact Or.inl (by simp [charListLt])
  | cons a as ih =>
    intro bs
    cases bs with
    | nil => exact Or.inr (Or.inr (by simp [charListLt]))
    | cons b bs =>
      by_cases hab : a = b
      · subst hab
        rcases ih bs with h | h | h
        · exact Or.inl (by simp [charListLt, h])
        · exact Or.inr (Or.inl (by rw [h]))
        · exact Or.inr (Or.inr (by simp [charListLt, h]))
      · rcases lt_trichotomy a b with h | h | h
        · exact Or.inl (by simp [charListLt, hab, h])
        · exact absurd h hab
        · exact Or.inr (Or.inr (by simp [charListLt, Ne.symm hab, h]))

theorem strLt_trans {a b c : String} (h1 : strLt a b = true)
    (h2 : strLt b c = true) : strLt a c = true :=
  charListLt_trans a.data b.data c.data h1 h2

theorem strLt_trichotomy (a b : String) :
    strLt a b = true ∨ a = b ∨ strLt b a = true := by
  rcases charListLt_trichotomy a.data b.data with h | h | h
  · exact Or.inl h
  · exact Or.inr (Or.inl (String.ext h))
  · exact Or.inr (Or.inr h)

theorem optLe_trans : ∀ x y z : Option ℕ,
    optLe x y = true → optLe y z = true → optLe x z = true := by
  intro x y z h1 h2
  cases x with
  | none => simp [optLe]
  | some a =>
    cases y with
    | none => simp [optLe] at h1
    | some b =>
      cases z with
      | none => simp [optLe] at h2
      | some c =>
        simp only [optLe, decide_eq_true_eq] at h1 h2 ⊢
        exact le_trans h1 h2

theorem optLe_total : ∀ x y : Option ℕ, optLe x y = true ∨ optLe y x = true := by
  intro x y
  cases x with
  | none => exact Or.inl (by simp [optLe])
  | some a =>
    cases y with
    | none => exact Or.inr (by simp [optLe])
    | some b =>
      rcases le_total a b with h | h
      · exact Or.inl (by simp [optLe, h])
      · exact Or.inr (by simp [optLe, h])

theorem entryLe_iff (a b : Entry) :
    entryLe a b ↔
      strLt a.1 b.1 = true ∨ (a.1 = b.1 ∧ optLe a.2 b.2 = true) := by
  simp [entryLe, entryLeB, Bool.or_eq_true, Bool.and_eq_true, beq_iff_eq]

instance : IsTrans Entry entryLe := by
  constructor
  intro a b c h1 h2
  rw [entryLe_iff] at h1 h2 ⊢
  rcases h1 with h1 | ⟨h1e, h1o⟩
  · rcases h2 with h2 | ⟨h2e, h2o⟩
    · exact Or.inl (strLt_trans h1 h2)
    · exact Or.inl (h2e ▸ h1)
  · rcases h2 with h2 | ⟨h2e, h2o⟩
    · exact Or.inl (h1e ▸ h2)
    · exact Or.inr ⟨h1e.trans h2e, optLe_trans _ _ _ h1o h2o⟩

instance : IsTotal Entry entryLe := by
  constructor
  intro a b
  rcases strLt_trichotomy a.1 b.1 with h | h | h
  · exact Or.inl ((entryLe_iff a b).mpr (Or.inl h))
  · rcases optLe_total a.2 b.2 with ho | ho
    · exact Or.inl ((entryLe_iff a b).mpr (Or.inr ⟨h, ho⟩))
    · exact Or.inr ((entryLe_iff b a).mpr (Or.inr ⟨h.symm, ho⟩))
  · exact Or.inr ((entryLe_iff b a).mpr (Or.inl h))

/-- `sortEntries` permutes its input. -/
theorem sortEntries_perm (l : List Entry) : (sortEntries l).Perm l :=
  List.perm_insertionSort entryLe l

/-- `sortEntries` sorts ascending with respect to the Rust entry order. -/
theorem sortEntries_sorted (l : List Entry) :
    List.Sorted entryLe (sortEntries l) :=
  List.sorted_insertionSort entryLe l

/-! ### Engine lemmas -/

theorem fillDirEntryBuffer_invalid {valid : String → Bool} {name : String}
    (h : valid name = false) (cap : ℕ) :
    fillDirEntryBuffer valid cap name = FillResult.invalid := by
  simp [fillDirEntryBuffer, h]

theorem fillDirEntryBuffer_full {valid : String → Bool} {name : String}
    (h : valid name = true) :
    fillDirEntryBuffer valid 0 name = FillResult.full := by
  simp [fillDirEntryBuffer, h]

theorem fillDirEntryBuffer_ok {valid : String → Bool} {name : String}
    {cap : ℕ} (h : valid name = true) (hc : cap ≠ 0) :
    fillDirEntryBuffer valid cap name = FillResult.ok := by
  simp [fillDirEntryBuffer, h, hc]

/-- Entries still ahead of the cursor after a pass were ahead of it before. -/
theorem getDirEnumAux_rem_mem (pat valid : String → Bool) :
    ∀ (l : List Entry) (cap : ℕ) (x : Entry),
      x ∈ (SimpleDirEnumerator.getDirEnumAux pat valid l cap).1 → x ∈ l := by
  intro l
  induction l with
  | nil =>
    intro cap x hx
    simp [SimpleDirEnumerator.getDirEnumAux] at hx
  | cons e rest ih =>
    intro cap x hx
    by_cases hp : pat e.1 = false
    · simp only [SimpleDirEnumerator.getDirEnumAux, if_pos hp] at hx
      exact List.mem_cons_of_mem e (ih cap x hx)
    · simp only [SimpleDirEnumerator.getDirEnumAux, if_neg hp] at hx
      by_cases hv : valid e.1 = false
      · rw [fillDirEntryBuffer_invalid hv] at hx
        exact List.mem_cons_of_mem e (ih cap x hx)
      · have hv' : valid e.1 = true := by
          revert hv; cases valid e.1 <;> simp
        by_cases hc : cap = 0
        · subst hc
          rw [fillDirEntryBuffer_full hv'] at hx
          exact hx
        · rw [fillDirEntryBuffer_ok hv' hc] at hx
          exact List.mem_cons_of_mem e (ih (cap - 1) x hx)

/-- The central pass invariant: the entries delivered by one pass, followed
by the pattern-matching part of what is still ahead of the cursor, are
exactly the pattern-matching part of what was ahead of the cursor before —
provided every pending name is valid for the filesystem. -/
theorem getDirEnumAux_append_filter (pat valid : String → Bool) :
    ∀ (l : List Entry) (cap : ℕ),
      (∀ e ∈ l, valid e.1 = true) →
      (SimpleDirEnumerator.getDirEnumAux pat valid l cap).2
          ++ ((SimpleDirEnumerator.getDirEnumAux pat valid l cap).1.filter
            (fun e => pat e.1))
        = l.filter (fun e => pat e.1) := by
  intro l
  induction l with
  | nil => intro cap _; simp [SimpleDirEnumerator.getDirEnumAux]
  | cons e rest ih =>
    intro cap hv
    have hve : valid e.1 = true := hv e (List.mem_cons_self e rest)
    have hvr : ∀ x ∈ rest, valid x.1 = true :=
      fun x hx => hv x (List.mem_cons_of_mem e hx)
    by_cases hp : pat e.1 = false
    · simp only [SimpleDirEnumerator.getDirEnumAux, if_pos hp]
      rw [List.filter_cons_of_neg (by simp [hp])]
      exact ih cap hvr
    · have hp' : pat e.1 = true := by
        revert hp; cases pat e.1 <;> simp
      simp only [SimpleDirEnumerator.getDirEnumAux, if_neg hp]
      by_cases hc : cap = 0
      · subst hc
        rw [fillDirEntryBuffer_full hve]
        simp
      · rw [fillDirEntryBuffer_ok hve hc]
        rw [List.filter_cons_of_pos (by simp [hp'])]
        simpa using ih (cap - 1) hvr

/-- When a pass leaves entries ahead of the cursor (given all names valid),
it stopped on buffer-full, so the cursor sits on a matching valid entry. -/
theorem getDirEnumAux_stop (pat valid : String → Bool) :
    ∀ (l : List Entry) (cap : ℕ) (e : Entry) (rem : List Entry),
      (∀ x ∈ l, valid x.1 = true) →
      (SimpleDirEnumerator.getDirEnumAux pat valid l cap).1 = e :: rem →
      pat e.1 = true ∧ valid e.1 = true := by
  intro l
  induction l with
  | nil =>
    intro cap e rem _ h
    simp [SimpleDirEnumerator.getDirEnumAux] at h
  | cons a rest ih =>
    intro cap e rem hv h
    have hva : valid a.1 = true := hv a (List.mem_cons_self a rest)
    have hvr : ∀ x ∈ rest, valid x.1 = true :=
      fun x hx => hv x (List.mem_cons_of_mem a hx)
    by_cases hp : pat a.1 = false
    · simp only [SimpleDirEnumerator.getDirEnumAux, if_pos hp] at h
      exact ih cap e rem hvr h
    · have hp' : pat a.1 = true := by
        revert hp; cases pat a.1 <;> simp
      simp only [SimpleDirEnumerator.getDirEnumAux, if_neg hp] at h
      by_cases hc : cap = 0
      · subst hc
        rw [fillDirEntryBuffer_full hva] at h
        obtain ⟨rfl, -⟩ : a = e ∧ rest = rem := by
          constructor <;> [exact (List.cons.injEq .. ▸ h).1;
            exact (List.cons.injEq .. ▸ h).2]
        exact ⟨hp', hva⟩
      · rw [fillDirEntryBuffer_ok hva hc] at h
        exact ih (cap - 1) e rem hvr h

/-- A pass over a sequence whose head matches the pattern and is valid, run
with a non-empty buffer, delivers that head first. -/
theorem getDirEnumAux_head (pat valid : String → Bool) (e : Entry)
    (rem : List Entry) (cap : ℕ) (hm : pat e.1 = true)
    (hv : valid e.1 = true) (hc : cap ≠ 0) :
    (SimpleDirEnumerator.getDirEnumAux pat valid (e :: rem) cap).2.head?
      = some e := by
  simp [SimpleDirEnumerator.getDirEnumAux, hm, fillDirEntryBuffer_ok hv hc]

/-! ### Enumeration-table lemmas -/

theorem lookupEnum_insertEnum (tbl : EnumTable) (id : ℕ)
    (en : SimpleDirEnumerator) :
    lookupEnum (insertEnum tbl id en) id = some en := by
  unfold lookupEnum insertEnum
  rw [List.find?_cons_of_pos _ (by simp)]
  rfl

theorem lookupEnum_none_filter (tbl : EnumTable) (id : ℕ)
    (h : lookupEnum tbl id = none) :
    tbl.filter (fun p => !(p.1 == id)) = tbl := by
  unfold lookupEnum at h
  rw [Option.map_eq_none'] at h
  rw [List.find?_eq_none] at h
  exact List.filter_eq_self.mpr (fun p hp => by simpa using h p hp)

/-- Invariant of a run of restart-free `get_dir_enum` calls on one id: the
session keeps its original sequence, its cursor only moves forward over
entries it has consumed, every call reports `S_OK`, and the deliveries so
far plus the matching part of the pending entries are exactly the matching
part of the entries pending at the start of the run. -/
theorem runGetCalls_spec (pat valid : String → Bool) :
    ∀ (caps : List ℕ) (tbl : EnumTable) (id : ℕ)
      (en : SimpleDirEnumerator),
      lookupEnum tbl id = some en →
      (∀ e ∈ en.cur, valid e.1 = true) →
      ∃ rem : List Entry,
        lookupEnum (RegFs.runGetCalls pat valid tbl id caps).1 id
          = some ⟨rem, en.start⟩
        ∧ (RegFs.runGetCalls pat valid tbl id caps).2.2
              ++ rem.filter (fun e => pat e.1)
            = en.cur.filter (fun e => pat e.1)
        ∧ (∀ hr ∈ (RegFs.runGetCalls pat valid tbl id caps).2.1, hr = S_OK)
        ∧ (∀ x ∈ rem, x ∈ en.cur) := by
  intro caps
  induction caps with
  | nil =>
    intro tbl id en h hv
    refine ⟨en.cur, ?_, by simp [RegFs.runGetCalls], ?_, ?_⟩
    · simpa [RegFs.runGetCalls] using h
    · intro hr hmem; simp [RegFs.runGetCalls] at hmem
    · intro x hx; exact hx
  | cons cap caps ih =>
    intro tbl id en h hv
    have hstep : RegFs.getDirEnum pat valid tbl id false cap
        = (insertEnum tbl id
            ⟨(SimpleDirEnumerator.getDirEnumAux pat valid en.cur cap).1,
              en.start⟩, S_OK,
            (SimpleDirEnumerator.getDirEnumAux pat valid en.cur cap).2) := by
      simp [RegFs.getDirEnum, h, SimpleDirEnumerator.getDirEnum]
    have hv' : ∀ x ∈ (SimpleDirEnumerator.getDirEnumAux pat valid
        en.cur cap).1, valid x.1 = true :=
      fun x hx => hv x (getDirEnumAux_rem_mem pat valid en.cur cap x hx)
    obtain ⟨rem, hlook, hcat, hok, hsub⟩ :=
      ih (insertEnum tbl id
          ⟨(SimpleDirEnumerator.getDirEnumAux pat valid en.cur cap).1,
            en.start⟩) id
        ⟨(SimpleDirEnumerator.getDirEnumAux pat valid en.cur cap).1,
          en.start⟩
        (lookupEnum_insertEnum ..) hv'
    refine ⟨rem, ?_, ?_, ?_, ?_⟩
    · simpa [RegFs.runGetCalls, hstep] using hlook
    · show (RegFs.runGetCalls pat valid tbl id (cap :: caps)).2.2
          ++ rem.filter (fun e => pat e.1)
        = en.cur.filter (fun e => pat e.1)
      simp only [RegFs.runGetCalls, hstep]
      rw [List.append_assoc, hcat]
      exact getDirEnumAux_append_filter pat valid en.cur cap hv
    · intro hr hmem
      simp only [RegFs.runGetCalls, hstep, List.mem_cons] at hmem
      rcases hmem with rfl | hmem
      · rfl
      · exact hok hr hmem
    · intro x hx
      exact getDirEnumAux_rem_mem pat valid en.cur cap x (hsub x hx)

/-! ### Sample data for witnesses -/

def sampleKey : KeyContent := ⟨["Soft"], [("Path", [1, 2, 3])]⟩

/-- A registry in which every hive root and every subkey path resolves to
`sampleKey`. -/
def sampleRegistry : Registry := ⟨fun _ => sampleKey, fun _ _ => sampleKey⟩

/-- A registry whose hive roots hold `sampleKey` but in which no subkey
path resolves to a key. -/
def sampleRegistryRootsOnly : Registry := ⟨fun _ => sampleKey, fun _ _ => none⟩

/-! ### The claims -/

/-- C1: for every fixed entry sequence, every search pattern and every
split of the listing into successive restart-free `get_enumeration` calls
on the same id — each call accepting some prefix of appends before
reporting buffer-full — once the run has consumed the whole sequence, the
concatenation of the delivered entries equals the pattern-filtered
subsequence of the original sequence (each matching entry exactly once, no
duplicates, no omissions); moreover a buffer-full append leaves the cursor
on that exact entry, and the next call with room delivers it first. -/
theorem regfs_enum_split_pagination_exact (pat valid : String → Bool)
    (seq : List Entry) (tbl : EnumTable) (id : ℕ) (caps : List ℕ)
    (hv : ∀ e ∈ seq, valid e.1 = true)
    (hs : lookupEnum tbl id = some (SimpleDirEnumerator.new seq))
    (hdone : lookupEnum (RegFs.runGetCalls pat valid tbl id caps).1 id
      = some ⟨[], seq⟩) :
    (RegFs.runGetCalls pat valid tbl id caps).2.2
        = seq.filter (fun e => pat e.1)
    ∧ (∀ hr ∈ (RegFs.runGetCalls pat valid tbl id caps).2.1, hr = S_OK)
    ∧ (∀ (l : List Entry) (cap cap' : ℕ) (e : Entry) (rem : List Entry),
        (∀ x ∈ l, valid x.1 = true) →
        (SimpleDirEnumerator.getDirEnumAux pat valid l cap).1 = e :: rem →
        cap' ≠ 0 →
        (SimpleDirEnumerator.getDirEnumAux pat valid (e :: rem) cap').2.head?
          = some e) := by
  obtain ⟨rem, hlook, hcat, hok, hsub⟩ :=
    runGetCalls_spec pat valid caps tbl id (SimpleDirEnumerator.new seq) hs hv
  have hrem : rem = [] := by
    have h2 := hlook.symm.trans hdone
    simpa [SimpleDirEnumerator.new] using h2
  refine ⟨?_, hok, ?_⟩
  · subst hrem
    simpa [SimpleDirEnumerator.new] using hcat
  · intro l cap cap' e rem' hlv hstop hc'
    obtain ⟨hme, hve⟩ := getDirEnumAux_stop pat valid l cap e rem' hlv hstop
    exact getDirEnumAux_head pat valid e rem' cap' hme hve hc'

/-- C1 witness: three entries listed through capacities 1, 0, 2 — the
zero-capacity call makes no progress and the entry is retried. -/
theorem regfs_enum_split_pagination_exact_witness :
    (RegFs.runGetCalls (fun _ => true) (fun _ => true)
        [(0, SimpleDirEnumerator.new [("a", none), ("b", some 2), ("c", none)])]
        0 [1, 0, 2]).2.2
      = [("a", (none : Option ℕ)), ("b", some 2), ("c", none)] :=
  (regfs_enum_split_pagination_exact (fun _ => true) (fun _ => true)
      [("a", none), ("b", some 2), ("c", none)]
      [(0, SimpleDirEnumerator.new [("a", none), ("b", some 2), ("c", none)])]
      0 [1, 0, 2] (by decide) (by decide) (by decide)).1

/-- C2 counterexample: `end_dir_enum` on an id absent from an empty table
returns `S_OK` — a success, not the `E_INVALIDARG` that `get_dir_enum`
returns for the same unknown id, refuting the claim that both return the
same defined error and neither returns success. -/
theorem end_enum_unknown_id_returns_success :
    (RegFs.endDirEnum [] 0).2 = S_OK
    ∧ (RegFs.getDirEnum (fun _ => true) (fun _ => true) [] 0 false 1).2.1
        = E_INVALIDARG
    ∧ S_OK ≠ E_INVALIDARG := by decide

/-- C2 (amended): for an unregistered id, `get_dir_enum` fails with
`E_INVALIDARG` and changes nothing, while `end_dir_enum` is a no-op that
reports `S_OK`; neither auto-creates a session. -/
theorem unknown_enum_id_behavior (pat valid : String → Bool)
    (tbl : EnumTable) (id : ℕ) (restart : Bool) (cap : ℕ)
    (h : lookupEnum tbl id = none) :
    RegFs.getDirEnum pat valid tbl id restart cap = (tbl, E_INVALIDARG, [])
    ∧ RegFs.endDirEnum tbl id = (tbl, S_OK) := by
  constructor
  · simp [RegFs.getDirEnum, h]
  · unfold RegFs.endDirEnum
    rw [lookupEnum_none_filter tbl id h]

/-- C2 (amended) witness at the empty table. -/
theorem unknown_enum_id_behavior_witness :
    RegFs.getDirEnum (fun _ => true) (fun _ => true) [] 0 false 1
      = ([], E_INVALIDARG, []) :=
  (unknown_enum_id_behavior (fun _ => true) (fun _ => true) [] 0 false 1
      (by decide)).1

/-- C3 (code defect evidence): in a successful `ProjFs::start` run the code
performs `PrjStartVirtualizing` — after which the OS worker pool may
dispatch callbacks — strictly before `set_instance_handle`, contradicting
the required ordering; the source marks the spot with a FIXME about the
race. -/
theorem start_registers_before_instance_handle :
    ∃ before after : List StartEvent,
      ProjFs.startEvents FsState.Ready true true
        = before ++ [StartEvent.registerVirtualization] ++ after
      ∧ StartEvent.setInstanceHandle ∉ before
      ∧ StartEvent.setInstanceHandle ∈ after :=
  ⟨[StartEvent.ensureVirtualizationRoot], [StartEvent.setInstanceHandle],
    by decide⟩

/-- C4: `notify` denies (returns a failing HRESULT for) exactly the
pre-delete and pre-rename events, leaving the backend state untouched, and
returns `S_OK` (Allow) for every other event kind. -/
theorem notify_pre_kinds_denied_others_allowed (tbl : EnumTable)
    (kind : NotificationKind) :
    ((kind = NotificationKind.preDelete ∨ kind = NotificationKind.preRename) →
      (RegFs.notify tbl kind).1 = tbl ∧ IsFailureHr (RegFs.notify tbl kind).2)
    ∧ (kind ≠ NotificationKind.preDelete →
      kind ≠ NotificationKind.preRename →
      RegFs.notify tbl kind = (tbl, S_OK)) := by
  constructor
  · intro h
    rcases h with rfl | rfl
    · exact ⟨rfl, by show IsFailureHr ERROR_ACCESS_DENIED; decide⟩
    · exact ⟨rfl, by show IsFailureHr STATUS_CANNOT_DELETE; decide⟩
  · intro h1 h2
    cases kind <;> first
      | rfl
      | exact absurd rfl h1
      | exact absurd rfl h2

/-- C4 witness: a pre-delete notification is denied without touching the
(empty) session table. -/
theorem notify_pre_kinds_denied_others_allowed_witness :
    (RegFs.notify [] NotificationKind.preDelete).1 = ([] : EnumTable)
    ∧ IsFailureHr (RegFs.notify [] NotificationKind.preDelete).2 :=
  (notify_pre_kinds_denied_others_allowed [] NotificationKind.preDelete).1
    (Or.inl rfl)

/-- C5: for a non-root path, `start_dir_enum` either resolves the key and
registers a fresh session over the sorted merge of its subkeys (as
directories) and values (as files sized by raw byte length) — a sorted
permutation of that union — or, when the hive or subkey chain does not
resolve, returns `ERROR_FILE_NOT_FOUND` and registers nothing. -/
theorem start_enum_nonroot_sorted_union_or_notfound
    (reg : Registry) (tbl : EnumTable) (path : String) (id : ℕ)
    (hp : path ≠ "") :
    (∀ k, openKey reg path = some k →
      RegFs.startDirEnum reg tbl path id
          = (insertEnum tbl id (SimpleDirEnumerator.new (keyEntries k)), S_OK)
        ∧ (keyEntries k).Perm
            (k.subkeys.map (fun name => (name, (none : Option ℕ)))
              ++ k.values.map (fun v => (v.1, some v.2.length)))
        ∧ List.Sorted entryLe (keyEntries k))
    ∧ (openKey reg path = none →
      RegFs.startDirEnum reg tbl path id = (tbl, ERROR_FILE_NOT_FOUND)) := by
  constructor
  · intro k hk
    refine ⟨?_, sortEntries_perm _, sortEntries_sorted _⟩
    simp [RegFs.startDirEnum, hp, hk]
  · intro hk
    simp [RegFs.startDirEnum, hp, hk]

/-- C5 witness: a resolvable subkey path registers the sorted session. -/
theorem start_enum_nonroot_sorted_union_or_notfound_witness :
    RegFs.startDirEnum sampleRegistry [] "HKEY_LOCAL_MACHINE\\X" 7
      = (insertEnum [] 7 (SimpleDirEnumerator.new (keyEntries sampleKey)),
          S_OK) :=
  ((start_enum_nonroot_sorted_union_or_notfound sampleRegistry []
      "HKEY_LOCAL_MACHINE\\X" 7 (by decide)).1 sampleKey (by decide)).1

/-- C6: `get_placeholder_info` resolves the whole path as a key first and
writes directory metadata of size 0; only when no key matches does it treat
the path as value-under-parent and write file metadata sized by the raw
value bytes; when neither resolves it returns `ERROR_FILE_NOT_FOUND`. -/
theorem placeholder_info_key_before_value (reg : Registry) (path : String) :
    (doesKeyExist reg path = true →
      RegFs.getPlaceholderInfo reg path
        = (some ⟨true, 0⟩, S_OK))
    ∧ (doesKeyExist reg path = false →
      ∀ v, readValue reg path = some v →
        RegFs.getPlaceholderInfo reg path
          = (some ⟨false, v.length⟩, S_OK))
    ∧ (doesKeyExist reg path = false → readValue reg path = none →
      RegFs.getPlaceholderInfo reg path = (none, ERROR_FILE_NOT_FOUND)) := by
  refine ⟨?_, ?_, ?_⟩
  · intro h
    simp [RegFs.getPlaceholderInfo, h, writePlaceholderInfo]
  · intro h v hval
    simp [RegFs.getPlaceholderInfo, h, hval, writePlaceholderInfo]
  · intro h hval
    simp [RegFs.getPlaceholderInfo, h, hval]

/-- C6 witness: a value path whose parent resolves but which is itself no
key yields file metadata sized by the raw bytes. -/
theorem placeholder_info_key_before_value_witness :
    RegFs.getPlaceholderInfo sampleRegistryRootsOnly
        "HKEY_CURRENT_USER\\Path"
      = (some ⟨false, 3⟩, S_OK) :=
  (placeholder_info_key_before_value sampleRegistryRootsOnly
      "HKEY_CURRENT_USER\\Path").2.1 (by decide) [1, 2, 3] (by decide)

/-- C7: `start_dir_enum` on the root (empty) path always registers a fresh
session over exactly the predefined hive names in ascending order, each a
directory (`none` size). -/
theorem start_enum_root_lists_hives_sorted (reg : Registry)
    (tbl : EnumTable) (id : ℕ) :
    RegFs.startDirEnum reg tbl "" id
        = (insertEnum tbl id (SimpleDirEnumerator.new rootEntries), S_OK)
    ∧ rootEntries
        = [("HKEY_CLASSES_ROOT", none), ("HKEY_CURRENT_CONFIG", none),
           ("HKEY_CURRENT_USER", none), ("HKEY_LOCAL_MACHINE", none),
           ("HKEY_USERS", none)]
    ∧ List.Sorted entryLe rootEntries := by
  refine ⟨?_, by decide, sortEntries_sorted _⟩
  simp [RegFs.startDirEnum]

/-- C8: `get_file_data` on a path resolving to a value allocates a buffer
of exactly the raw byte length, delivers the whole value at offset 0
independent of the requested window, and otherwise returns
`ERROR_FILE_NOT_FOUND` delivering nothing. -/
theorem get_file_data_whole_value_at_offset_zero (reg : Registry)
    (path : String) (byteOffset length : ℕ) :
    (∀ v, readValue reg path = some v →
      RegFs.getFileData reg path byteOffset length
        = (some ⟨v.length, v, 0⟩, S_OK))
    ∧ (readValue reg path = none →
      RegFs.getFileData reg path byteOffset length
        = (none, ERROR_FILE_NOT_FOUND))
    ∧ RegFs.getFileData reg path byteOffset length
        = RegFs.getFileData reg path 0 0 := by
  refine ⟨?_, ?_, rfl⟩
  · intro v hval
    simp [RegFs.getFileData, hval]
  · intro hval
    simp [RegFs.getFileData, hval]

/-- C8 witness: a three-byte value is delivered whole at offset 0 even for
the request window (5, 100). -/
theorem get_file_data_whole_value_at_offset_zero_witness :
    RegFs.getFileData sampleRegistryRootsOnly "HKEY_CURRENT_USER\\Path"
        5 100
      = (some ⟨3, [1, 2, 3], 0⟩, S_OK) :=
  (get_file_data_whole_value_at_offset_zero sampleRegistryRootsOnly
      "HKEY_CURRENT_USER\\Path" 5 100).1 [1, 2, 3] (by decide)

/-- C9: the session lifecycle moves only Ready→Running→Stopped: `start`
panics outside Ready and leaves the state Ready when root preparation or
registration fails, `stop` panics outside Running, and dropping a
still-Running session performs `stop` (never panicking), so no registration
outlives the session object. -/
theorem session_lifecycle_monotonic :
    (∀ rootOk regOk : Bool,
      ProjFs.start FsState.Running rootOk regOk = none
      ∧ ProjFs.start FsState.Stopped rootOk regOk = none)
    ∧ (∀ regOk : Bool,
      ProjFs.start FsState.Ready false regOk = some (FsState.Ready, false))
    ∧ ProjFs.start FsState.Ready true false = some (FsState.Ready, false)
    ∧ ProjFs.start FsState.Ready true true = some (FsState.Running, true)
    ∧ ProjFs.stop FsState.Ready = none
    ∧ ProjFs.stop FsState.Stopped = none
    ∧ ProjFs.stop FsState.Running = some FsState.Stopped
    ∧ ProjFs.drop FsState.Running = ProjFs.stop FsState.Running
    ∧ ProjFs.drop FsState.Running = some FsState.Stopped
    ∧ ProjFs.drop FsState.Ready = some FsState.Ready
    ∧ ProjFs.drop FsState.Stopped = some FsState.Stopped := by
  exact ⟨fun _ _ => ⟨rfl, rfl⟩, fun _ => rfl, rfl, rfl, rfl, rfl, rfl, rfl,
    rfl, rfl, rfl⟩

/-- C10: an entry whose name the filesystem rejects (append fails for a
reason other than buffer-full) is skipped — the pass continues exactly as
if the cursor had already been past it — and the surrounding
`get_dir_enum` call still reports `S_OK` whenever the id is known. -/
theorem invalid_name_skipped_listing_continues
    (pat valid : String → Bool) (e : Entry) (rest : List Entry) (cap : ℕ)
    (hm : pat e.1 = true) (hv : valid e.1 = false) :
    SimpleDirEnumerator.getDirEnumAux pat valid (e :: rest) cap
        = SimpleDirEnumerator.getDirEnumAux pat valid rest cap
    ∧ (∀ (tbl : EnumTable) (id : ℕ) (en : SimpleDirEnumerator)
        (restart : Bool) (cap' : ℕ),
        lookupEnum tbl id = some en →
        (RegFs.getDirEnum pat valid tbl id restart cap').2.1 = S_OK) := by
  constructor
  · simp [SimpleDirEnumerator.getDirEnumAux, hm, fillDirEntryBuffer_invalid hv]
  · intro tbl id en restart cap' h
    simp [RegFs.getDirEnum, h]

/-- C10 witness: a matching entry with an invalid name is skipped. -/
theorem invalid_name_skipped_listing_continues_witness :
    SimpleDirEnumerator.getDirEnumAux (fun _ => true) (fun _ => false)
        [("a", none)] 1
      = SimpleDirEnumerator.getDirEnumAux (fun _ => true) (fun _ => false)
        [] 1 :=
  (invalid_name_skipped_listing_continues (fun _ => true) (fun _ => false)
      ("a", none) [] 1 (by decide) (by decide)).1

end RegfsRs
